import Mathlib

/-!
Verification of the complex-step Newton solvers of the repository
(`cnewton.ipynb`: `cnewton` with a scalar and a dense vector branch, and the
matrix-free `cnewtonv`).  Real numbers of the source are modelled as rationals
(exact arithmetic); complex numbers as pairs `(re, im)` of rationals.  The
external linear solvers (`numpy.linalg.solve`, `scipy lgmres`) are modelled as
uninterpreted oracle parameters; where a claim needs the inner solve to be
exact, that is a hypothesis on the oracle's output.
-/

/-- Complex numbers over ℚ, as (real part, imaginary part) pairs.  The source
uses Python complex floats only as a carrier for the complex-step trick. -/
abbrev Cx : Type := ℚ × ℚ

/-- Complex multiplication on `Cx`. -/
def cmul (a b : Cx) : Cx := (a.1 * b.1 - a.2 * b.2, a.1 * b.2 + a.2 * b.1)

/-- Embedding of a real (rational) scalar as a complex number. -/
def ofQ (a : ℚ) : Cx := (a, 0)

/-- Real vectors of dimension `n`. -/
abbrev RVec (n : ℕ) : Type := Fin n → ℚ

/-- Complex vectors of dimension `n`. -/
abbrev CVec (n : ℕ) : Type := Fin n → Cx

/-- Embedding of a real vector as a complex vector (`x + 1j*0.0`). -/
def ofRealV {n : ℕ} (x : RVec n) : CVec n := fun i => ofQ (x i)

/-- Componentwise imaginary part of a complex vector (numpy `.imag`). -/
def imV {n : ℕ} (z : CVec n) : RVec n := fun i => (z i).2

/-- Evaluation of the residual at a real point, as the source does with
`f(x)` on a real array: the result's real part.  (For the residuals the
source uses, real input gives real output, so the imaginary part is zero.) -/
def fRe {n : ℕ} (f : CVec n → CVec n) (x : RVec n) : RVec n :=
  fun i => (f (ofRealV x) i).1

/-- The complex-step perturbed point of the dense branch:
`xx = x.copy()+1j*0.0; xx[j] = x[j]+1j*h`, i.e. `x + i·h·e_j`. -/
def perturb {n : ℕ} (x : RVec n) (h : ℚ) (j : Fin n) : CVec n :=
  Function.update (ofRealV x) j (x j, h)

/-- The Jacobian matrix assembled by the dense vector branch of `cnewton`:
the double loop `F = f(xx).imag; J[i,j] = F[i]` stores in column `j` the
imaginary part of `f(x + i·h·e_j)` — with no division by `h`. -/
def cnJacobian {n : ℕ} (f : CVec n → CVec n) (x : RVec n) (h : ℚ) :
    Matrix (Fin n) (Fin n) ℚ :=
  Matrix.of fun i j => (f (perturb x h j) i).2

/-- The Jacobian formula as the specification words it: column `j` is the
imaginary part of `f(x + i·h·e_j)` divided by `h`.  Modelled from the spec,
for comparison with `cnJacobian` (the code's assembly). -/
def specDenseJacobian {n : ℕ} (f : CVec n → CVec n) (x : RVec n) (h : ℚ) :
    Matrix (Fin n) (Fin n) ℚ :=
  Matrix.of fun i j => (f (perturb x h j) i).2 / h

/-- The Jacobian-vector-product operator of the matrix-free path:
`mv(u) = f(x + 1j*h*u).imag`. -/
def mvOp {n : ℕ} (f : CVec n → CVec n) (x : RVec n) (h : ℚ) (u : RVec n) :
    RVec n :=
  imV (f (fun k => (x k, h * u k)))

/-- Infinity norm of a real vector (`npl.norm(v, np.inf)`), as a fold of
`max` over the absolute values of the entries. -/
def linf {n : ℕ} (v : RVec n) : ℚ :=
  ((List.finRange n).map fun i => |v i|).foldr max 0

/-- State of the shared outer Newton loop: current iterate, latest error
norm, iteration count.  Both solvers keep the previous iterate only to form
the error norm, and re-synchronise it with the current iterate at the end of
every pass, so the loop state needs no separate previous-iterate field. -/
structure NSt (α : Type) where
  x : α
  error : ℚ
  iters : ℕ

/-- The shared `while (iters <= maxit and error >= tol)` loop, by structural
recursion on fuel.  The body maps the current iterate to the pair
(new error norm, new iterate); `iters` increases by one per pass.  Any fuel
strictly larger than the loop's intrinsic bound gives the same result
(`loopFuel_stable`), so `loopFuel … (maxit + 2)` from `iters = 0` is exactly
the source's while loop. -/
def loopFuel {α : Type} (body : α → ℚ × α) (maxit : ℕ) (tol : ℚ) :
    ℕ → NSt α → NSt α
  | 0, s => s
  | Nat.succ fuel, s =>
    if s.iters ≤ maxit ∧ tol ≤ s.error then
      loopFuel body maxit tol fuel ⟨(body s.x).2, (body s.x).1, s.iters + 1⟩
    else s

/-- One pass of the scalar branch of `cnewton`:
`deriv = f(x+1j*h); x = x - h*f(x)/deriv.imag; error = np.abs(x-x0)`
(where `x0` holds the previous iterate). -/
def scalarBody (f : Cx → Cx) (h : ℚ) (x : ℚ) : ℚ × ℚ :=
  let d := (f (x, h)).2
  let x1 := x - h * (f (x, 0)).1 / d
  (|x1 - x|, x1)

/-- One pass of the dense vector branch of `cnewton`: assemble `J` column by
column via the complex step, evaluate `b1 = f(x)`, solve `J·b = b1` with the
dense linear-solve oracle `lin` (modelling `npl.solve`), update `x ← x - h·b`,
and set the error to the infinity norm of the step. -/
def denseBody {n : ℕ} (f : CVec n → CVec n) (h : ℚ)
    (lin : Matrix (Fin n) (Fin n) ℚ → RVec n → RVec n) (x : RVec n) :
    ℚ × RVec n :=
  let J := cnJacobian f x h
  let b1 := fRe f x
  let b := lin J b1
  let x1 : RVec n := fun i => x i - h * b i
  (linf (fun i => x1 i - x i), x1)

/-- One pass of the matrix-free `cnewtonv` loop: `b = h*f(x)`, then
`(b, info) = lgmres(A, b, x, tol, maxiter=maxit, atol=tol)` with `A` the
`LinearOperator` whose matvec is `mvOp` at the current iterate (the closure
`mv` reads the current `x`), then `x = x - b; error = npl.norm(b, np.inf)`.
The Krylov solver is the oracle `kry` (operator, right-hand side, initial
guess ↦ approximate solution). -/
def kryBody {n : ℕ} (f : CVec n → CVec n) (h : ℚ)
    (kry : (RVec n → RVec n) → RVec n → RVec n → RVec n) (x : RVec n) :
    ℚ × RVec n :=
  let r : RVec n := fun i => h * fRe f x i
  let d := kry (mvOp f x h) r x
  let x1 : RVec n := fun i => x i - d i
  (linf d, x1)

/-- The scalar branch of `cnewton`, end to end: loop from
`error = 1.0, iters = 0`, returning `(x, iters, error)`. -/
def cnewtonScalar (f : Cx → Cx) (x0 : ℚ) (maxit : ℕ) (tol h : ℚ) :
    ℚ × ℕ × ℚ :=
  let s := loopFuel (scalarBody f h) maxit tol (maxit + 2) ⟨x0, 1, 0⟩
  (s.x, s.iters, s.error)

/-- The residual of the list-level solvers, restricted to length-`n` vectors.
Out-of-range reads are totalised with `0` (they occur in no run in which the
residual respects dimensions, as the pre-loop check of the source assumes). -/
def fOnFin (f : List Cx → List Cx) (n : ℕ) : CVec n → CVec n :=
  fun z i => (f ((List.finRange n).map z)).getD i.1 ((0 : ℚ), (0 : ℚ))

/-- The dense vector branch of `cnewton` at the Python list level:
`x0 = np.array(list(x0)); n = len(x0); x = x0.copy(); F = f(x)`, then the
dimension check `if (len(F)!=n): raise`, then the while loop; returns the
triple `(x, iters, error)`, or the raised message.  `lin` is the
`npl.solve` oracle. -/
def cnewtonVecRun (f : List Cx → List Cx) (x0 : List ℚ) (maxit : ℕ)
    (tol h : ℚ)
    (lin : (n : ℕ) → Matrix (Fin n) (Fin n) ℚ → RVec n → RVec n) :
    Except String (List ℚ × ℕ × ℚ) :=
  let n := x0.length
  let x : RVec n := fun i => x0.get i
  let F := f (x0.map ofQ)
  if F.length ≠ n then Except.error "f must be agree in dimension with x0"
  else
    let s := loopFuel (denseBody (fOnFin f n) h (lin n)) maxit tol
      (maxit + 2) ⟨x, 1, 0⟩
    Except.ok ((List.finRange n).map s.x, s.iters, s.error)

/-- `cnewtonv` at the Python list level: `x0 = np.array(list(x0));
n = len(x0); x = x0.copy(); b = f(x)`, the dimension check, then the while
loop with the Krylov oracle `kry` (modelling `lgmres`). -/
def cnewtonvRun (f : List Cx → List Cx) (x0 : List ℚ) (maxit : ℕ)
    (tol h : ℚ)
    (kry : (n : ℕ) → (RVec n → RVec n) → RVec n → RVec n → RVec n) :
    Except String (List ℚ × ℕ × ℚ) :=
  let n := x0.length
  let x : RVec n := fun i => x0.get i
  let b := f (x0.map ofQ)
  if b.length ≠ n then Except.error "f must be agree in dimension with x0"
  else
    let s := loopFuel (kryBody (fOnFin f n) h (kry n)) maxit tol
      (maxit + 2) ⟨x, 1, 0⟩
    Except.ok ((List.finRange n).map s.x, s.iters, s.error)

/-- The shapes of Python values the `cnewton` dispatch distinguishes:
built-in `float`, built-in `int`, a numpy scalar such as `np.float64`, and a
list/array of numbers. -/
inductive PyVal where
  | pyFloat (q : ℚ)
  | pyInt (z : ℤ)
  | npFloat (q : ℚ)
  | pyArr (l : List ℚ)

/-- The branch test of `cnewton`: `type(x0)==float or type(x0)==int`.
Exact-type comparison, so a numpy scalar does not match. -/
def scalarSel : PyVal → Bool
  | PyVal.pyFloat _ => true
  | PyVal.pyInt _ => true
  | PyVal.npFloat _ => false
  | PyVal.pyArr _ => false

/-- `float(x0)` on the values the scalar branch receives (and a default on
the others, which never reach it). -/
def floatOf : PyVal → ℚ
  | PyVal.pyFloat q => q
  | PyVal.pyInt z => (z : ℚ)
  | PyVal.npFloat q => q
  | PyVal.pyArr _ => 0

/-- Python `list(x0)` as the vector branch applies it: succeeds on a
list/array, raises a `TypeError` on a 0-d numpy scalar or a plain number. -/
def toListPy : PyVal → Except String (List ℚ)
  | PyVal.pyArr l => Except.ok l
  | PyVal.npFloat _ => Except.error "TypeError: iteration over a 0-d array"
  | PyVal.pyFloat _ => Except.error "TypeError: float object is not iterable"
  | PyVal.pyInt _ => Except.error "TypeError: int object is not iterable"

/-- The value returned by `cnewton`: a scalar from the scalar branch, an
array from the vector branch. -/
inductive PyOut where
  | s (q : ℚ)
  | arr (l : List ℚ)

/-- `cnewton` end to end, with its runtime dispatch on the type of `x0`:
the scalar branch when `type(x0)` is exactly `float` or `int` (the iterate
starting from `float(x0)`, with no dimension check anywhere on that path),
the vector branch otherwise, which begins by applying `list(x0)`.  The scalar
residual behaviour and the list residual behaviour of the one Python callable
`f` are the two parameters `fS`, `fL`. -/
def cnewtonTop (fS : Cx → Cx) (fL : List Cx → List Cx)
    (lin : (n : ℕ) → Matrix (Fin n) (Fin n) ℚ → RVec n → RVec n)
    (x0 : PyVal) (maxit : ℕ) (tol h : ℚ) :
    Except String (PyOut × ℕ × ℚ) :=
  if scalarSel x0 then
    let r := cnewtonScalar fS (floatOf x0) maxit tol h
    Except.ok (PyOut.s r.1, r.2.1, r.2.2)
  else
    match toListPy x0 with
    | Except.error e => Except.error e
    | Except.ok l =>
      match cnewtonVecRun fL l maxit tol h lin with
      | Except.error e => Except.error e
      | Except.ok r => Except.ok (PyOut.arr r.1, r.2.1, r.2.2)

/-- The complex extension of the affine residual `f(x) = J·x + c` with real
matrix `J` and real vector `c`: complex arithmetic applied to a complex
argument. -/
def affineC {n : ℕ} (J : Matrix (Fin n) (Fin n) ℚ) (c : RVec n) :
    CVec n → CVec n :=
  fun z i => (∑ j, cmul (ofQ (J i j)) (z j)) + ofQ (c i)

/-- A numpy array in the heap model: a list of complex cells (real arrays
carry zero imaginary parts). -/
abbrev Arr : Type := List Cx

/-- The heap of the aliasing model: numpy array objects addressed by
allocation index.  Allocation appends; assignment to a Python name is mere
rebinding of a reference and touches no cell. -/
abbrev Heap : Type := List Arr

/-- Read the array object at reference `r`. -/
def rd (st : Heap) (r : ℕ) : Arr := st.getD r []

/-- In-place element write `a[i] = v` on the array object at reference
`r`. -/
def setIdx (st : Heap) (r i : ℕ) (v : Cx) : Heap :=
  st.set r ((rd st r).set i v)

/-- Infinity norm of a heap array; on the real arrays that occur in runs it
is `npl.norm(·, np.inf)` (its value is irrelevant to the frame claim). -/
def linfArr (l : Arr) : ℚ := (l.map fun z => max |z.1| |z.2|).foldr max 0

/-- Elementwise `a - s*b` on array contents (numpy allocates the result). -/
def arrSub (a b : Arr) (s : ℚ) : Arr :=
  List.zipWith (fun u v => (u.1 - s * v.1, u.2 - s * v.2)) a b

/-- One pass of the inner column loop of the dense branch, on the heap:
`xx = x.copy()+1j*0.0` (fresh allocation), `xx[j] = x[j]+1j*h` (in-place on
the fresh `xx`), `F = f(xx).imag`, then `for i: J[i,j] = F[i]` (in-place on
the local matrix object `Jr`, stored row-major). -/
def colStep (f : Arr → Arr) (h : ℚ) (n Jr xr : ℕ) (st : Heap) (j : ℕ) :
    Heap :=
  let st1 := st ++ [rd st xr]
  let xxr := st.length
  let st2 := setIdx st1 xxr j (((rd st xr).getD j (0, 0)).1, h)
  let F := (f (rd st2 xxr)).map fun z => z.2
  (List.range n).foldl (fun s i => setIdx s Jr (i * n + j) (F.getD i 0, 0))
    st2

/-- One pass of the dense vector branch on the heap.  The loop state is
(heap, reference bound to `x`, reference bound to `x0`); `Jr` is the
reference of the Jacobian object allocated before the loop.  In order:
the column loop, `b1 = f(x)` (fresh), `b = npl.solve(J, b1)` (fresh, via the
oracle `lin`), `x = x - h*b` (fresh allocation, rebinding `x`),
`xx2 = x - x0` (fresh), `error = npl.norm(xx2, np.inf)`, `x0 = x.copy()`
(fresh allocation, rebinding `x0`). -/
def denseBodyHeap (f : Arr → Arr) (h : ℚ) (lin : Arr → Arr → Arr)
    (n Jr : ℕ) (s : Heap × ℕ × ℕ) : ℚ × (Heap × ℕ × ℕ) :=
  let st := s.1
  let xr := s.2.1
  let x0r := s.2.2
  let st1 := (List.range n).foldl (colStep f h n Jr xr) st
  let st2 := st1 ++ [f (rd st1 xr)]
  let b1r := st1.length
  let st3 := st2 ++ [lin (rd st2 Jr) (rd st2 b1r)]
  let br := st2.length
  let st4 := st3 ++ [arrSub (rd st3 xr) (rd st3 br) h]
  let xr1 := st3.length
  let st5 := st4 ++ [arrSub (rd st4 xr1) (rd st4 x0r) 1]
  let er := linfArr (rd st5 st4.length)
  let st6 := st5 ++ [rd st5 xr1]
  (er, (st6, xr1, st5.length))

/-- The dense vector branch of `cnewton` on the heap, from caller reference
`x0ref`: `x0 = np.array(list(x0))` (fresh copy, rebinding the local name),
`x = x0.copy()` (fresh), `J = np.zeros((n,n))` (fresh), the dimension check,
then the while loop.  Returns the final heap together with the raised
message or the result triple. -/
def cnewtonVecHeap (f : Arr → Arr) (maxit : ℕ) (tol h : ℚ)
    (lin : Arr → Arr → Arr) (st0 : Heap) (x0ref : ℕ) :
    Heap × Except String (Arr × ℕ × ℚ) :=
  let st1 := st0 ++ [rd st0 x0ref]
  let x0l := st0.length
  let n := (rd st1 x0l).length
  let st2 := st1 ++ [rd st1 x0l]
  let xr := st1.length
  let st3 := st2 ++ [List.replicate (n * n) ((0 : ℚ), (0 : ℚ))]
  let Jr := st2.length
  let F := f (rd st3 xr)
  if F.length ≠ n then
    (st3, Except.error "f must be agree in dimension with x0")
  else
    let s := loopFuel (denseBodyHeap f h lin n Jr) maxit tol (maxit + 2)
      ⟨(st3, xr, x0l), 1, 0⟩
    (s.x.1, Except.ok (rd s.x.1 s.x.2.1, s.iters, s.error))

/-- One pass of the `cnewtonv` loop on the heap: `b = h*f(x)` (fresh),
`b = lgmres(A, b, x, …)` (fresh, via the oracle `kry`, whose operator reads
the current iterate), `x = x - b` (fresh allocation, rebinding `x`),
`error = npl.norm(b, np.inf)`.  No in-place writes at all. -/
def kryBodyHeap (f : Arr → Arr) (h : ℚ)
    (kry : (Arr → Arr) → Arr → Arr → Arr) (s : Heap × ℕ) :
    ℚ × (Heap × ℕ) :=
  let st := s.1
  let xr := s.2
  let st1 := st ++ [(f (rd st xr)).map fun z => (h * z.1, h * z.2)]
  let br0 := st.length
  let st2 := st1 ++
    [kry (fun u =>
        (f (List.zipWith (fun a w => (a.1, h * w.1)) (rd st1 xr) u)).map
          fun z => (z.2, 0))
      (rd st1 br0) (rd st1 xr)]
  let br := st1.length
  let st3 := st2 ++ [arrSub (rd st2 xr) (rd st2 br) 1]
  (linfArr (rd st2 br), (st3, st2.length))

/-- `cnewtonv` on the heap, from caller reference `x0ref`. -/
def cnewtonvHeap (f : Arr → Arr) (maxit : ℕ) (tol h : ℚ)
    (kry : (Arr → Arr) → Arr → Arr → Arr) (st0 : Heap) (x0ref : ℕ) :
    Heap × Except String (Arr × ℕ × ℚ) :=
  let st1 := st0 ++ [rd st0 x0ref]
  let x0l := st0.length
  let n := (rd st1 x0l).length
  let st2 := st1 ++ [rd st1 x0l]
  let xr := st1.length
  let b := f (rd st2 xr)
  if b.length ≠ n then
    (st2, Except.error "f must be agree in dimension with x0")
  else
    let s := loopFuel (kryBodyHeap f h kry) maxit tol (maxit + 2)
      ⟨(st2, xr), 1, 0⟩
    (s.x.1, Except.ok (rd s.x.1 s.x.2, s.iters, s.error))

theorem loopFuel_zero {α : Type} (body : α → ℚ × α) (maxit : ℕ) (tol : ℚ)
    (s : NSt α) : loopFuel body maxit tol 0 s = s := rfl

theorem loopFuel_succ {α : Type} (body : α → ℚ × α) (maxit : ℕ) (tol : ℚ)
    (fuel : ℕ) (s : NSt α) :
    loopFuel body maxit tol (fuel + 1) s =
      if s.iters ≤ maxit ∧ tol ≤ s.error then
        loopFuel body maxit tol fuel ⟨(body s.x).2, (body s.x).1, s.iters + 1⟩
      else s := rfl

theorem loopFuel_two {α : Type} (body : α → ℚ × α) (maxit : ℕ) (tol : ℚ)
    (s : NSt α) :
    loopFuel body maxit tol (maxit + 2) s =
      if s.iters ≤ maxit ∧ tol ≤ s.error then
        loopFuel body maxit tol (maxit + 1)
          ⟨(body s.x).2, (body s.x).1, s.iters + 1⟩
      else s := rfl

theorem loopFuel_guard_false {α : Type} (body : α → ℚ × α) (maxit : ℕ)
    (tol : ℚ) (fuel : ℕ) (s : NSt α)
    (hg : ¬(s.iters ≤ maxit ∧ tol ≤ s.error)) :
    loopFuel body maxit tol fuel s = s := by
  cases fuel with
  | zero => rfl
  | succ fuel => rw [loopFuel_succ, if_neg hg]

theorem loopFuel_iters_le {α : Type} (body : α → ℚ × α) (maxit : ℕ)
    (tol : ℚ) (fuel : ℕ) :
    ∀ s : NSt α, s.iters ≤ maxit + 1 →
      (loopFuel body maxit tol fuel s).iters ≤ maxit + 1 := by
  induction fuel with
  | zero => exact fun s hs => hs
  | succ fuel ih =>
    intro s hs
    rw [loopFuel_succ]
    split
    · next hg => exact ih _ (Nat.succ_le_succ hg.1)
    · exact hs

theorem loopFuel_exit {α : Type} (body : α → ℚ × α) (maxit : ℕ) (tol : ℚ)
    (fuel : ℕ) :
    ∀ s : NSt α, maxit + 1 ≤ fuel + s.iters →
      (loopFuel body maxit tol fuel s).error < tol ∨
        maxit < (loopFuel body maxit tol fuel s).iters := by
  induction fuel with
  | zero =>
    intro s hs
    right
    show maxit < s.iters
    omega
  | succ fuel ih =>
    intro s hs
    rw [loopFuel_succ]
    split
    · next hg =>
      exact ih ⟨(body s.x).2, (body s.x).1, s.iters + 1⟩
        (by show maxit + 1 ≤ fuel + (s.iters + 1); omega)
    · next hg =>
      rcases not_and_or.mp hg with h1 | h2
      · exact Or.inr (Nat.lt_of_not_le h1)
      · exact Or.inl (lt_of_not_le h2)

theorem loopFuel_invar {α : Type} (body : α → ℚ × α) (maxit : ℕ) (tol : ℚ)
    (Q : α → Prop) (hQ : ∀ a, Q a → Q (body a).2) (fuel : ℕ) :
    ∀ s : NSt α, Q s.x → Q (loopFuel body maxit tol fuel s).x := by
  induction fuel with
  | zero => exact fun s hs => hs
  | succ fuel ih =>
    intro s hs
    rw [loopFuel_succ]
    split
    · exact ih _ (hQ _ hs)
    · exact hs

theorem loopFuel_run_props {α : Type} (body : α → ℚ × α) (maxit : ℕ)
    (tol : ℚ) (x : α) (e0 : ℚ) :
    ((loopFuel body maxit tol (maxit + 2) ⟨x, e0, 0⟩).error < tol ∨
      maxit < (loopFuel body maxit tol (maxit + 2) ⟨x, e0, 0⟩).iters) ∧
    (loopFuel body maxit tol (maxit + 2) ⟨x, e0, 0⟩).iters ≤ maxit + 1 ∧
    (tol ≤ (loopFuel body maxit tol (maxit + 2) ⟨x, e0, 0⟩).error →
      (loopFuel body maxit tol (maxit + 2) ⟨x, e0, 0⟩).iters = maxit + 1) := by
  have hexit := loopFuel_exit body maxit tol (maxit + 2) ⟨x, e0, 0⟩
    (by show maxit + 1 ≤ maxit + 2 + 0; omega)
  have hle := loopFuel_iters_le body maxit tol (maxit + 2) ⟨x, e0, 0⟩
    (by show (0 : ℕ) ≤ maxit + 1; omega)
  refine ⟨hexit, hle, fun hcap => ?_⟩
  rcases hexit with h1 | h2
  · exact absurd hcap (not_le.mpr h1)
  · omega

theorem loopFuel_maxit0 {α : Type} (body : α → ℚ × α) (tol : ℚ) (x : α)
    (htol : tol ≤ 1) :
    loopFuel body 0 tol (0 + 2) ⟨x, 1, 0⟩ =
      ⟨(body x).2, (body x).1, 1⟩ := by
  rw [loopFuel_two, if_pos ⟨Nat.le_refl 0, htol⟩]
  exact loopFuel_guard_false _ _ _ _ _ (fun hc => by
    have h1 : (0 : ℕ) + 1 ≤ 0 := hc.1
    omega)

theorem loopFuel_stable {α : Type} (body : α → ℚ × α) (maxit : ℕ)
    (tol : ℚ) (fuel : ℕ) :
    ∀ s : NSt α, maxit + 1 ≤ fuel + s.iters →
      loopFuel body maxit tol (fuel + 1) s = loopFuel body maxit tol fuel s := by
  induction fuel with
  | zero =>
    intro s hs
    rw [loopFuel_zero, loopFuel_succ, if_neg]
    intro hc
    exact absurd hc.1 (by omega)
  | succ fuel ih =>
    intro s hs
    rw [loopFuel_succ body maxit tol (fuel + 1) s, loopFuel_succ body maxit tol fuel s]
    split
    · exact ih ⟨(body s.x).2, (body s.x).1, s.iters + 1⟩
        (by show maxit + 1 ≤ fuel + (s.iters + 1); omega)
    · rfl

theorem affineC_re {n : ℕ} (J : Matrix (Fin n) (Fin n) ℚ) (c : RVec n)
    (z : CVec n) (i : Fin n) :
    (affineC J c z i).1 = (∑ j, J i j * (z j).1) + c i := by
  simp [affineC, Prod.fst_sum, cmul, ofQ]

theorem affineC_im {n : ℕ} (J : Matrix (Fin n) (Fin n) ℚ) (c : RVec n)
    (z : CVec n) (i : Fin n) :
    (affineC J c z i).2 = ∑ j, J i j * (z j).2 := by
  simp [affineC, Prod.snd_sum, cmul, ofQ]

theorem cnJacobian_affine {n : ℕ} (J : Matrix (Fin n) (Fin n) ℚ)
    (c : RVec n) (x : RVec n) (h : ℚ) :
    cnJacobian (affineC J c) x h = h • J := by
  ext i j
  show (affineC J c (perturb x h j) i).2 = (h • J) i j
  rw [affineC_im]
  have hp : ∀ k, (perturb x h j k).2 = if k = j then h else 0 := by
    intro k
    by_cases hk : k = j
    · subst hk; simp [perturb]
    · simp [perturb, Function.update_apply, hk, ofRealV, ofQ]
  simp only [hp, mul_ite, mul_zero, Finset.sum_ite_eq', Finset.mem_univ,
    if_true, Matrix.smul_apply, smul_eq_mul]
  ring

theorem fRe_affine {n : ℕ} (J : Matrix (Fin n) (Fin n) ℚ) (c : RVec n)
    (x : RVec n) (i : Fin n) :
    fRe (affineC J c) x i = J.mulVec x i + c i := by
  show (affineC J c (ofRealV x) i).1 = J.mulVec x i + c i
  rw [affineC_re]
  simp [ofRealV, ofQ, Matrix.mulVec, Matrix.dotProduct]

theorem mvOp_affine {n : ℕ} (J : Matrix (Fin n) (Fin n) ℚ) (c : RVec n)
    (x : RVec n) (h : ℚ) (u : RVec n) (i : Fin n) :
    mvOp (affineC J c) x h u i = h * J.mulVec u i := by
  show (affineC J c (fun k => (x k, h * u k)) i).2 = h * J.mulVec u i
  rw [affineC_im]
  simp only [Matrix.mulVec, Matrix.dotProduct, Finset.mul_sum]
  exact Finset.sum_congr rfl fun k _ => by ring

/-- C1: for an affine residual f(x) = J·x + c with J invertible, in exact
arithmetic and with the inner linear system solved exactly (`b` solving the
dense system, `d` the exact Krylov solution), one outer pass of the dense
vector branch and one outer pass of the matrix-free solver produce the same
new iterate, and that iterate is the standard Newton step
x − J⁻¹·f(x) (characterised, J being invertible, by
J·(x − x_new) = f(x)): the explicit h in x − h·b cancels against the
un-divided Jacobian h·J, and the h scaling the right-hand side h·f(x)
cancels against the operator u ↦ Im(f(x + i·h·u)) = h·J·u. -/
theorem C1_dense_krylov_same_newton_step {n : ℕ}
    (J : Matrix (Fin n) (Fin n) ℚ) (c x b d : RVec n) (h : ℚ)
    (hh : h ≠ 0) (hJ : IsUnit J.det)
    (hb : (cnJacobian (affineC J c) x h).mulVec b = fRe (affineC J c) x)
    (hd : mvOp (affineC J c) x h d =
      fun i => h * fRe (affineC J c) x i) :
    (denseBody (affineC J c) h (fun _ _ => b) x).2 =
      (kryBody (affineC J c) h (fun _ _ _ => d) x).2 ∧
    J.mulVec (fun i => x i -
        (denseBody (affineC J c) h (fun _ _ => b) x).2 i) =
      fRe (affineC J c) x := by
  have hInj : Function.Injective J.mulVec :=
    Matrix.mulVec_injective_iff_isUnit.mpr
      ((Matrix.isUnit_iff_isUnit_det J).mpr hJ)
  have hb1 : J.mulVec (h • b) = fRe (affineC J c) x := by
    rw [Matrix.mulVec_smul]
    rw [cnJacobian_affine, Matrix.smul_mulVec_assoc] at hb
    exact hb
  have hd1 : J.mulVec d = fRe (affineC J c) x := by
    funext i
    refine mul_left_cancel₀ hh ?_
    rw [← mvOp_affine J c x h d i]
    exact congrFun hd i
  have hbd : h • b = d := hInj (hb1.trans hd1.symm)
  constructor
  · show (fun i => x i - h * b i) = fun i => x i - d i
    funext i
    rw [← congrFun hbd i]
    simp
  · show J.mulVec (fun i => x i - (x i - h * b i)) = fRe (affineC J c) x
    have hx : (fun i => x i - (x i - h * b i)) = h • b := by
      funext i
      simp
    rw [hx, hb1]

/-- C1 witness: a concrete affine system (n = 1, J = [[2]], c = [0],
x = [1], h = 1) with exact inner solutions b = d = [1], instantiating the
theorem. -/
theorem C1_witness :
    (1 : ℚ) ≠ 0 ∧
    IsUnit (!![(2 : ℚ)] : Matrix (Fin 1) (Fin 1) ℚ).det ∧
    (cnJacobian (affineC !![(2 : ℚ)] ![0]) ![1] 1).mulVec ![1] =
      fRe (affineC !![(2 : ℚ)] ![0]) ![1] ∧
    mvOp (affineC !![(2 : ℚ)] ![0]) ![1] 1 ![1] =
      (fun i => 1 * fRe (affineC !![(2 : ℚ)] ![0]) ![1] i) ∧
    ((denseBody (affineC !![(2 : ℚ)] ![0]) 1 (fun _ _ => ![1]) ![1]).2 =
      (kryBody (affineC !![(2 : ℚ)] ![0]) 1 (fun _ _ _ => ![1]) ![1]).2 ∧
    (!![(2 : ℚ)] : Matrix (Fin 1) (Fin 1) ℚ).mulVec (fun i => ![1] i -
        (denseBody (affineC !![(2 : ℚ)] ![0]) 1
          (fun _ _ => ![1]) ![1]).2 i) =
      fRe (affineC !![(2 : ℚ)] ![0]) ![1]) := by
  have hu : IsUnit (!![(2 : ℚ)] : Matrix (Fin 1) (Fin 1) ℚ).det := by
    rw [Matrix.det_fin_one_of]
    exact isUnit_iff_ne_zero.mpr (by norm_num)
  have hb : (cnJacobian (affineC !![(2 : ℚ)] ![0]) ![1] 1).mulVec ![1] =
      fRe (affineC !![(2 : ℚ)] ![0]) ![1] := by
    funext i
    rw [cnJacobian_affine, one_smul]
    rw [fRe_affine]
    simp
  have hd : mvOp (affineC !![(2 : ℚ)] ![0]) ![1] 1 ![1] =
      (fun i => 1 * fRe (affineC !![(2 : ℚ)] ![0]) ![1] i) := by
    funext i
    rw [mvOp_affine, fRe_affine]
    simp
  exact ⟨by norm_num, hu, hb, hd,
    C1_dense_krylov_same_newton_step !![(2 : ℚ)] ![0] ![1] ![1] ![1] 1
      (by norm_num) hu hb hd⟩

/-- C2 counterexample: the claim says the assembled Jacobian column is the
imaginary part of f(x + i·h·e_j) divided by h; the code stores the
imaginary part un-divided.  At the affine residual f(x) = x (J = [[1]],
c = [0]), base point x = [0] and h = 2, the spec formula gives 1 while the
code's matrix entry is 2. -/
theorem C2_counterexample :
    specDenseJacobian (affineC !![(1 : ℚ)] ![0]) ![0] 2 0 0 ≠
      cnJacobian (affineC !![(1 : ℚ)] ![0]) ![0] 2 0 0 := by
  have h2 : specDenseJacobian (affineC !![(1 : ℚ)] ![0]) ![0] 2 0 0 =
      cnJacobian (affineC !![(1 : ℚ)] ![0]) ![0] 2 0 0 / 2 := rfl
  rw [h2, cnJacobian_affine]
  simp only [Matrix.smul_apply, smul_eq_mul]
  norm_num

/-- C2 (amended): every outer iteration of the dense vector branch builds
the Jacobian column-by-column with column j equal to the imaginary part of
f(x + i·h·e_j) — not divided by h — evaluates F = f(x) at the real iterate,
solves J·b = F (exactly, when the `npl.solve` oracle is exact at this
system), updates x ← x − h·b, and sets the error to the infinity norm of
x − x_previous. -/
theorem C2_amended_dense_iteration {n : ℕ} (f : CVec n → CVec n) (h : ℚ)
    (lin : Matrix (Fin n) (Fin n) ℚ → RVec n → RVec n) (x : RVec n)
    (hsolve : (cnJacobian f x h).mulVec
        (lin (cnJacobian f x h) (fRe f x)) = fRe f x) :
    cnJacobian f x h = Matrix.of (fun i j => (f (perturb x h j) i).2) ∧
    (cnJacobian f x h).mulVec (lin (cnJacobian f x h) (fRe f x)) =
      fRe f x ∧
    (denseBody f h lin x).2 =
      (fun i => x i - h * lin (cnJacobian f x h) (fRe f x) i) ∧
    (denseBody f h lin x).1 =
      linf (fun i => (denseBody f h lin x).2 i - x i) :=
  ⟨rfl, hsolve, rfl, rfl⟩

/-- C2 witness: the amended theorem instantiated at the affine residual
f(x) = x + 0 (J = [[1]], c = [0]), x = [1], h = 1, with the exact solver
being the identity oracle. -/
theorem C2_witness :
    ((cnJacobian (affineC !![(1 : ℚ)] ![0]) ![1] 1).mulVec
        ((fun _ F => F) (cnJacobian (affineC !![(1 : ℚ)] ![0]) ![1] 1)
          (fRe (affineC !![(1 : ℚ)] ![0]) ![1])) =
      fRe (affineC !![(1 : ℚ)] ![0]) ![1]) ∧
    (cnJacobian (affineC !![(1 : ℚ)] ![0]) ![1] 1 =
      Matrix.of (fun i j =>
        (affineC !![(1 : ℚ)] ![0] (perturb ![1] 1 j) i).2) ∧
    (cnJacobian (affineC !![(1 : ℚ)] ![0]) ![1] 1).mulVec
        ((fun _ F => F) (cnJacobian (affineC !![(1 : ℚ)] ![0]) ![1] 1)
          (fRe (affineC !![(1 : ℚ)] ![0]) ![1])) =
      fRe (affineC !![(1 : ℚ)] ![0]) ![1] ∧
    (denseBody (affineC !![(1 : ℚ)] ![0]) 1 (fun _ F => F) ![1]).2 =
      (fun i => ![1] i - 1 * (fun _ F => F)
        (cnJacobian (affineC !![(1 : ℚ)] ![0]) ![1] 1)
        (fRe (affineC !![(1 : ℚ)] ![0]) ![1]) i) ∧
    (denseBody (affineC !![(1 : ℚ)] ![0]) 1 (fun _ F => F) ![1]).1 =
      linf (fun i =>
        (denseBody (affineC !![(1 : ℚ)] ![0]) 1 (fun _ F => F) ![1]).2 i -
          ![1] i)) := by
  have hsolve : (cnJacobian (affineC !![(1 : ℚ)] ![0]) ![1] 1).mulVec
      ((fun _ F => F) (cnJacobian (affineC !![(1 : ℚ)] ![0]) ![1] 1)
        (fRe (affineC !![(1 : ℚ)] ![0]) ![1])) =
      fRe (affineC !![(1 : ℚ)] ![0]) ![1] := by
    have hfre : fRe (affineC !![(1 : ℚ)] ![0]) ![1] = ![1] := by
      funext i
      rw [fRe_affine]
      simp [Matrix.mulVec, Matrix.dotProduct, Fin.sum_univ_one]
    funext i
    rw [cnJacobian_affine, one_smul, hfre]
    simp [Matrix.mulVec, Matrix.dotProduct, Fin.sum_univ_one]
  exact ⟨hsolve, C2_amended_dense_iteration (affineC !![(1 : ℚ)] ![0]) 1
    (fun _ F => F) ![1] hsolve⟩

/-- C3: every outer pass of `cnewtonv` evaluates the right-hand side
r = h·f(x), solves J·Δ ≈ r with the Krylov oracle applied to the operator
u ↦ Im(f(x + i·h·u)) and seeded with the current iterate as the initial
guess, updates x ← x − Δ, and sets the error to the infinity norm of Δ. -/
theorem C3_krylov_iteration {n : ℕ} (f : CVec n → CVec n) (h : ℚ)
    (kry : (RVec n → RVec n) → RVec n → RVec n → RVec n) (x : RVec n) :
    kryBody f h kry x =
      (linf (kry (mvOp f x h) (fun i => h * fRe f x i) x),
        fun i => x i - kry (mvOp f x h) (fun i => h * fRe f x i) x i) ∧
    mvOp f x h = fun u => imV (f (fun k => (x k, h * u k))) :=
  ⟨rfl, rfl⟩

/-- C4: every pass of the scalar branch of `cnewton` updates
x ← x − h·f(x)/Im(f(x + i·h)) and sets the error to |x_new − x_previous|. -/
theorem C4_scalar_iteration (f : Cx → Cx) (h x : ℚ) :
    (scalarBody f h x).2 = x - h * (f (x, 0)).1 / (f (x, h)).2 ∧
    (scalarBody f h x).1 = |(scalarBody f h x).2 - x| :=
  ⟨rfl, rfl⟩

/-- C5: for every call to either solver (the scalar branch unconditionally;
the vector branches whenever the dimension precondition lets the call reach
the loop) the loop body runs only while iters ≤ maxit and error ≥ tol both
hold, so at exit either the error has dropped below tol or iters exceeds
maxit, and the returned iters never exceeds maxit + 1; failing the error
condition alone (tol > 1, so the sentinel fails it at entry) already
prevents any iteration. -/
theorem C5_guard_and_exit (fS : Cx → Cx) (x0 : ℚ)
    (fL : List Cx → List Cx) (l : List ℚ) (maxit : ℕ) (tol h : ℚ)
    (lin : (n : ℕ) → Matrix (Fin n) (Fin n) ℚ → RVec n → RVec n)
    (kry : (n : ℕ) → (RVec n → RVec n) → RVec n → RVec n → RVec n)
    (hdim : (fL (l.map ofQ)).length = l.length) :
    (((cnewtonScalar fS x0 maxit tol h).2.2 < tol ∨
        maxit < (cnewtonScalar fS x0 maxit tol h).2.1) ∧
      (cnewtonScalar fS x0 maxit tol h).2.1 ≤ maxit + 1 ∧
      (1 < tol → (cnewtonScalar fS x0 maxit tol h).2.1 = 0)) ∧
    (∃ xs it e,
      cnewtonVecRun fL l maxit tol h lin = Except.ok (xs, it, e) ∧
        (e < tol ∨ maxit < it) ∧ it ≤ maxit + 1) ∧
    (∃ xs it e,
      cnewtonvRun fL l maxit tol h kry = Except.ok (xs, it, e) ∧
        (e < tol ∨ maxit < it) ∧ it ≤ maxit + 1) := by
  refine ⟨⟨?_, ?_, ?_⟩, ?_, ?_⟩
  · exact (loopFuel_run_props (scalarBody fS h) maxit tol x0 1).1
  · exact (loopFuel_run_props (scalarBody fS h) maxit tol x0 1).2.1
  · intro htol
    show (loopFuel (scalarBody fS h) maxit tol (maxit + 2)
      ⟨x0, 1, 0⟩).iters = 0
    rw [loopFuel_guard_false _ _ _ _ _
      (fun hc => absurd hc.2 (not_le.mpr htol))]
  · simp only [cnewtonVecRun]
    rw [if_neg (fun hc => hc hdim)]
    exact ⟨_, _, _, rfl,
      (loopFuel_run_props (denseBody (fOnFin fL l.length) h (lin l.length))
        maxit tol (fun i => l.get i) 1).1,
      (loopFuel_run_props (denseBody (fOnFin fL l.length) h (lin l.length))
        maxit tol (fun i => l.get i) 1).2.1⟩
  · simp only [cnewtonvRun]
    rw [if_neg (fun hc => hc hdim)]
    exact ⟨_, _, _, rfl,
      (loopFuel_run_props (kryBody (fOnFin fL l.length) h (kry l.length))
        maxit tol (fun i => l.get i) 1).1,
      (loopFuel_run_props (kryBody (fOnFin fL l.length) h (kry l.length))
        maxit tol (fun i => l.get i) 1).2.1⟩

/-- C5 witness: instantiation with the identity residual, x0 = [1],
maxit = 0, h = 1; tol = 2 > 1 exhibits immediate exit with zero iterations,
tol = 1 exhibits the exit condition and the iters bound on both vector
solvers. -/
theorem C5_witness :
    (cnewtonScalar (fun z => z) 0 0 2 1).2.1 = 0 ∧
    (∃ xs it e,
      cnewtonVecRun (fun v => v) [1] 0 1 1 (fun _ _ F => F) =
        Except.ok (xs, it, e) ∧ (e < 1 ∨ 0 < it) ∧ it ≤ 0 + 1) ∧
    (∃ xs it e,
      cnewtonvRun (fun v => v) [1] 0 1 1 (fun _ _ r _ => r) =
        Except.ok (xs, it, e) ∧ (e < 1 ∨ 0 < it) ∧ it ≤ 0 + 1) := by
  refine ⟨?_, ?_, ?_⟩
  · exact (C5_guard_and_exit (fun z => z) 0 (fun v => v) [1] 0 2 1
      (fun _ _ F => F) (fun _ _ r _ => r) rfl).1.2.2 (by norm_num)
  · exact (C5_guard_and_exit (fun z => z) 0 (fun v => v) [1] 0 1 1
      (fun _ _ F => F) (fun _ _ r _ => r) rfl).2.1
  · exact (C5_guard_and_exit (fun z => z) 0 (fun v => v) [1] 0 1 1
      (fun _ _ F => F) (fun _ _ r _ => r) rfl).2.2

/-- C7: both solver loops terminate, the body executing at most maxit + 1
times (iters, which counts body executions, is at most maxit + 1); when the
loop exits with error ≥ tol still holding, no exception is raised: the
triple is returned with iters = maxit + 1. -/
theorem C7_termination_cap (fS : Cx → Cx) (x0 : ℚ)
    (fL : List Cx → List Cx) (l : List ℚ) (maxit : ℕ) (tol h : ℚ)
    (lin : (n : ℕ) → Matrix (Fin n) (Fin n) ℚ → RVec n → RVec n)
    (kry : (n : ℕ) → (RVec n → RVec n) → RVec n → RVec n → RVec n)
    (hdim : (fL (l.map ofQ)).length = l.length) :
    ((cnewtonScalar fS x0 maxit tol h).2.1 ≤ maxit + 1 ∧
      (tol ≤ (cnewtonScalar fS x0 maxit tol h).2.2 →
        (cnewtonScalar fS x0 maxit tol h).2.1 = maxit + 1)) ∧
    (∃ xs it e,
      cnewtonVecRun fL l maxit tol h lin = Except.ok (xs, it, e) ∧
        it ≤ maxit + 1 ∧ (tol ≤ e → it = maxit + 1)) ∧
    (∃ xs it e,
      cnewtonvRun fL l maxit tol h kry = Except.ok (xs, it, e) ∧
        it ≤ maxit + 1 ∧ (tol ≤ e → it = maxit + 1)) := by
  refine ⟨⟨?_, ?_⟩, ?_, ?_⟩
  · exact (loopFuel_run_props (scalarBody fS h) maxit tol x0 1).2.1
  · exact (loopFuel_run_props (scalarBody fS h) maxit tol x0 1).2.2
  · simp only [cnewtonVecRun]
    rw [if_neg (fun hc => hc hdim)]
    exact ⟨_, _, _, rfl,
      (loopFuel_run_props (denseBody (fOnFin fL l.length) h (lin l.length))
        maxit tol (fun i => l.get i) 1).2.1,
      (loopFuel_run_props (denseBody (fOnFin fL l.length) h (lin l.length))
        maxit tol (fun i => l.get i) 1).2.2⟩
  · simp only [cnewtonvRun]
    rw [if_neg (fun hc => hc hdim)]
    exact ⟨_, _, _, rfl,
      (loopFuel_run_props (kryBody (fOnFin fL l.length) h (kry l.length))
        maxit tol (fun i => l.get i) 1).2.1,
      (loopFuel_run_props (kryBody (fOnFin fL l.length) h (kry l.length))
        maxit tol (fun i => l.get i) 1).2.2⟩

/-- C7 witness: instantiation with a residual whose scalar step keeps the
error at 1 ≥ tol, so the cap exit is exercised (maxit = 0, one body
execution, iters = 1 = maxit + 1), and the identity residual on the vector
solvers. -/
theorem C7_witness :
    ((cnewtonScalar (fun _ => ((1 : ℚ), (1 : ℚ))) 0 0 1 1).2.1 ≤ 0 + 1 ∧
      (cnewtonScalar (fun _ => ((1 : ℚ), (1 : ℚ))) 0 0 1 1).2.1 = 0 + 1) ∧
    (∃ xs it e,
      cnewtonVecRun (fun v => v) [1] 0 1 1 (fun _ _ F => F) =
        Except.ok (xs, it, e) ∧ it ≤ 0 + 1 ∧ (1 ≤ e → it = 0 + 1)) ∧
    (∃ xs it e,
      cnewtonvRun (fun v => v) [1] 0 1 1 (fun _ _ r _ => r) =
        Except.ok (xs, it, e) ∧ it ≤ 0 + 1 ∧ (1 ≤ e → it = 0 + 1)) := by
  have hth := C7_termination_cap (fun _ => ((1 : ℚ), (1 : ℚ))) 0
    (fun v => v) [1] 0 1 1 (fun _ _ F => F) (fun _ _ r _ => r) rfl
  have herr : (1 : ℚ) ≤
      (cnewtonScalar (fun _ => ((1 : ℚ), (1 : ℚ))) 0 0 1 1).2.2 := by
    show (1 : ℚ) ≤ (loopFuel (scalarBody (fun _ => ((1 : ℚ), (1 : ℚ))) 1)
      0 1 (0 + 2) ⟨0, 1, 0⟩).error
    rw [loopFuel_maxit0 _ _ _ le_rfl]
    show (1 : ℚ) ≤ (scalarBody (fun _ => ((1 : ℚ), (1 : ℚ))) 1 0).1
    simp [scalarBody]
  exact ⟨⟨hth.1.1, hth.1.2 herr⟩, hth.2.1, hth.2.2⟩

/-- C8 counterexample: a call with maxit = 0 whose tolerance exceeds the
sentinel (tol = 2 > 1.0 = initial error) fails the error condition at
entry, so the loop body never executes and the solver returns iters = 0,
not 1. -/
theorem C8_counterexample :
    (cnewtonScalar (fun z => z) 0 0 2 1).2.1 = 0 ∧
    (cnewtonScalar (fun z => z) 0 0 2 1).2.1 ≠ 1 := by
  have h0 : (cnewtonScalar (fun z => z) 0 0 2 1).2.1 = 0 := by
    show (loopFuel (scalarBody (fun z => z) 1) 0 2 (0 + 2)
      ⟨0, 1, 0⟩).iters = 0
    rw [loopFuel_guard_false _ _ _ _ _
      (fun hc => absurd hc.2 (by norm_num))]
  exact ⟨h0, by rw [h0]; exact Nat.zero_ne_one⟩

/-- C8 (amended): for every call with maxit = 0 and tol ≤ 1 (so the
sentinel error 1.0 passes the guard, which is checked before the
increment) — and, for the vector solvers, passing the dimension
precondition — the loop body executes exactly once and the solver returns
with iters = 1. -/
theorem C8_amended_maxit0 (fS : Cx → Cx) (x0 : ℚ)
    (fL : List Cx → List Cx) (l : List ℚ) (tol h : ℚ)
    (lin : (n : ℕ) → Matrix (Fin n) (Fin n) ℚ → RVec n → RVec n)
    (kry : (n : ℕ) → (RVec n → RVec n) → RVec n → RVec n → RVec n)
    (htol : tol ≤ 1) (hdim : (fL (l.map ofQ)).length = l.length) :
    (cnewtonScalar fS x0 0 tol h).2.1 = 1 ∧
    (∃ xs e, cnewtonVecRun fL l 0 tol h lin = Except.ok (xs, 1, e)) ∧
    (∃ xs e, cnewtonvRun fL l 0 tol h kry = Except.ok (xs, 1, e)) := by
  refine ⟨?_, ?_, ?_⟩
  · show (loopFuel (scalarBody fS h) 0 tol (0 + 2) ⟨x0, 1, 0⟩).iters = 1
    rw [loopFuel_maxit0 _ _ _ htol]
  · simp only [cnewtonVecRun]
    rw [if_neg (fun hc => hc hdim), loopFuel_maxit0 _ _ _ htol]
    exact ⟨_, _, rfl⟩
  · simp only [cnewtonvRun]
    rw [if_neg (fun hc => hc hdim), loopFuel_maxit0 _ _ _ htol]
    exact ⟨_, _, rfl⟩

/-- C8 witness: the amended theorem at the identity residual, x0 = 0 and
[1], maxit = 0, tol = 1 ≤ 1, h = 1. -/
theorem C8_witness :
    (cnewtonScalar (fun z => z) 0 0 1 1).2.1 = 1 ∧
    (∃ xs e, cnewtonVecRun (fun v => v) [1] 0 1 1 (fun _ _ F => F) =
      Except.ok (xs, 1, e)) ∧
    (∃ xs e, cnewtonvRun (fun v => v) [1] 0 1 1 (fun _ _ r _ => r) =
      Except.ok (xs, 1, e)) :=
  C8_amended_maxit0 (fun z => z) 0 (fun v => v) [1] 1 1
    (fun _ _ F => F) (fun _ _ r _ => r) le_rfl rfl

/-- C6: when f(x0) disagrees in length with x0, both vector solvers raise
the dimension message before entering the iteration loop: the model
returns the raised message and no (x, iters, error) triple, the loop being
unreachable past the check. -/
theorem C6_dimension_check (f : List Cx → List Cx) (x0 : List ℚ)
    (maxit : ℕ) (tol h : ℚ)
    (lin : (n : ℕ) → Matrix (Fin n) (Fin n) ℚ → RVec n → RVec n)
    (kry : (n : ℕ) → (RVec n → RVec n) → RVec n → RVec n → RVec n)
    (hmis : (f (x0.map ofQ)).length ≠ x0.length) :
    cnewtonVecRun f x0 maxit tol h lin =
      Except.error "f must be agree in dimension with x0" ∧
    cnewtonvRun f x0 maxit tol h kry =
      Except.error "f must be agree in dimension with x0" := by
  constructor
  · simp only [cnewtonVecRun]
    rw [if_pos hmis]
  · simp only [cnewtonvRun]
    rw [if_pos hmis]

/-- C6 witness: a residual returning a 3-vector called with a 2-element
x0 (the spec's concrete scenario 3). -/
theorem C6_witness :
    cnewtonVecRun (fun _ => [((0 : ℚ), (0 : ℚ)), (0, 0), (0, 0)]) [0, 0]
        100 1 1 (fun _ _ F => F) =
      Except.error "f must be agree in dimension with x0" ∧
    cnewtonvRun (fun _ => [((0 : ℚ), (0 : ℚ)), (0, 0), (0, 0)]) [0, 0]
        100 1 1 (fun _ _ r _ => r) =
      Except.error "f must be agree in dimension with x0" :=
  C6_dimension_check _ _ 100 1 1 _ _ (by decide)

/-- C10: `cnewton` takes the scalar path exactly when `type(x0)` is the
built-in float or int — an int is coerced with `float(x0)` and the scalar
path performs no dimension check and cannot raise — while every other
value, a numpy scalar such as np.float64 included, is dispatched to the
vector branch, which applies `list()` (raising the TypeError on a 0-d
numpy scalar) and then runs the length check. -/
theorem C10_dispatch (fS : Cx → Cx) (fL : List Cx → List Cx)
    (lin : (n : ℕ) → Matrix (Fin n) (Fin n) ℚ → RVec n → RVec n)
    (maxit : ℕ) (tol h : ℚ) :
    (∀ q : ℚ, scalarSel (PyVal.pyFloat q) = true) ∧
    (∀ z : ℤ, scalarSel (PyVal.pyInt z) = true) ∧
    (∀ q : ℚ, scalarSel (PyVal.npFloat q) = false) ∧
    (∀ l : List ℚ, scalarSel (PyVal.pyArr l) = false) ∧
    (∀ z : ℤ, cnewtonTop fS fL lin (PyVal.pyInt z) maxit tol h =
      Except.ok (PyOut.s (cnewtonScalar fS ((z : ℚ)) maxit tol h).1,
        (cnewtonScalar fS ((z : ℚ)) maxit tol h).2.1,
        (cnewtonScalar fS ((z : ℚ)) maxit tol h).2.2)) ∧
    (∀ q : ℚ, ∃ r, cnewtonTop fS fL lin (PyVal.pyFloat q) maxit tol h =
      Except.ok r) ∧
    (∀ q : ℚ, cnewtonTop fS fL lin (PyVal.npFloat q) maxit tol h =
      Except.error "TypeError: iteration over a 0-d array") ∧
    (∀ l : List ℚ, cnewtonTop fS fL lin (PyVal.pyArr l) maxit tol h =
      (match cnewtonVecRun fL l maxit tol h lin with
        | Except.error e => Except.error e
        | Except.ok r =>
          Except.ok (PyOut.arr r.1, r.2.1, r.2.2))) :=
  ⟨fun _ => rfl, fun _ => rfl, fun _ => rfl, fun _ => rfl, fun _ => rfl,
    fun _ => ⟨_, rfl⟩, fun _ => rfl, fun _ => rfl⟩

theorem rd_append {st : Heap} {r : ℕ} (a : Arr) (hr : r < st.length) :
    rd (st ++ [a]) r = rd st r := List.getD_append _ _ _ _ hr

theorem rd_set_ne {st : Heap} (q r : ℕ) (a : Arr) (hne : q ≠ r) :
    rd (st.set q a) r = rd st r := by
  unfold rd
  rw [List.getD_eq_getElem?_getD, List.getD_eq_getElem?_getD,
    List.getElem?_set_ne hne]

theorem rd_setIdx_ne {st : Heap} (q r i : ℕ) (v : Cx) (hne : q ≠ r) :
    rd (setIdx st q i v) r = rd st r := rd_set_ne q r _ hne

theorem length_setIdx (st : Heap) (q i : ℕ) (v : Cx) :
    (setIdx st q i v).length = st.length := List.length_set _ _ _

theorem foldl_preserve {β : Type} (P : Heap → Prop) (g : Heap → β → Heap)
    (hg : ∀ st b, P st → P (g st b)) :
    ∀ (l : List β) (st : Heap), P st → P (l.foldl g st) := by
  intro l
  induction l with
  | nil => exact fun st hs => hs
  | cons b bl ih => exact fun st hs => ih _ (hg _ _ hs)

theorem rd_appends5 (L : Heap) (a b c d e : Arr) {r n0 : ℕ} (hr : r < n0)
    (hL : n0 ≤ L.length) :
    rd (((((L ++ [a]) ++ [b]) ++ [c]) ++ [d]) ++ [e]) r = rd L r := by
  have h0 : r < L.length := lt_of_lt_of_le hr hL
  rw [rd_append e (by simp [List.length_append]; omega),
    rd_append d (by simp [List.length_append]; omega),
    rd_append c (by simp [List.length_append]; omega),
    rd_append b (by simp [List.length_append]; omega),
    rd_append a h0]

theorem rd_appends3 (L : Heap) (a b c : Arr) {r n0 : ℕ} (hr : r < n0)
    (hL : n0 ≤ L.length) :
    rd (((L ++ [a]) ++ [b]) ++ [c]) r = rd L r := by
  have h0 : r < L.length := lt_of_lt_of_le hr hL
  rw [rd_append c (by simp [List.length_append]; omega),
    rd_append b (by simp [List.length_append]; omega),
    rd_append a h0]

theorem colStep_preserve (f : Arr → Arr) (h : ℚ) (n Jr xr r n0 : ℕ)
    (v : Arr) (hr : r < n0) (hJr : n0 ≤ Jr) (st : Heap) (j : ℕ)
    (hst : n0 ≤ st.length ∧ rd st r = v) :
    n0 ≤ (colStep f h n Jr xr st j).length ∧
      rd (colStep f h n Jr xr st j) r = v := by
  obtain ⟨hlen, hrd⟩ := hst
  have hbase : n0 ≤ (setIdx (st ++ [rd st xr]) st.length j
        (((rd st xr).getD j (0, 0)).1, h)).length ∧
      rd (setIdx (st ++ [rd st xr]) st.length j
        (((rd st xr).getD j (0, 0)).1, h)) r = v := by
    constructor
    · rw [length_setIdx, List.length_append]
      omega
    · rw [rd_setIdx_ne _ _ _ _ (by omega), rd_append _ (by omega)]
      exact hrd
  exact foldl_preserve (fun s => n0 ≤ s.length ∧ rd s r = v) _
    (fun s i hs => ⟨by rw [length_setIdx]; exact hs.1,
      by rw [rd_setIdx_ne _ _ _ _ (by omega)]; exact hs.2⟩)
    (List.range n) _ hbase

theorem append_preserve {r n0 : ℕ} {v : Arr} (hr : r < n0) (st : Heap)
    (a : Arr) (hst : n0 ≤ st.length ∧ rd st r = v) :
    n0 ≤ (st ++ [a]).length ∧ rd (st ++ [a]) r = v :=
  ⟨by rw [List.length_append]; omega,
    by rw [rd_append a (lt_of_lt_of_le hr hst.1)]; exact hst.2⟩

theorem denseBodyHeap_preserve (f : Arr → Arr) (h : ℚ)
    (lin : Arr → Arr → Arr) (n Jr r n0 : ℕ) (v : Arr)
    (hr : r < n0) (hJr : n0 ≤ Jr) (s : Heap × ℕ × ℕ)
    (hs : n0 ≤ s.1.length ∧ rd s.1 r = v) :
    n0 ≤ (denseBodyHeap f h lin n Jr s).2.1.length ∧
      rd (denseBodyHeap f h lin n Jr s).2.1 r = v := by
  have h1 : n0 ≤ ((List.range n).foldl (colStep f h n Jr s.2.1) s.1).length ∧
      rd ((List.range n).foldl (colStep f h n Jr s.2.1) s.1) r = v :=
    foldl_preserve (fun st => n0 ≤ st.length ∧ rd st r = v) _
      (fun st b hst => colStep_preserve f h n Jr s.2.1 r n0 v hr hJr st b hst)
      (List.range n) s.1 hs
  exact append_preserve hr _ _ (append_preserve hr _ _
    (append_preserve hr _ _ (append_preserve hr _ _
      (append_preserve hr _ _ h1))))

theorem kryBodyHeap_preserve (f : Arr → Arr) (h : ℚ)
    (kry : (Arr → Arr) → Arr → Arr → Arr) (r n0 : ℕ) (v : Arr)
    (hr : r < n0) (s : Heap × ℕ)
    (hs : n0 ≤ s.1.length ∧ rd s.1 r = v) :
    n0 ≤ (kryBodyHeap f h kry s).2.1.length ∧
      rd (kryBodyHeap f h kry s).2.1 r = v :=
  append_preserve hr _ _ (append_preserve hr _ _
    (append_preserve hr _ _ hs))

theorem denseLoop_preserve (f : Arr → Arr) (h tol : ℚ)
    (lin : Arr → Arr → Arr) (maxit n Jr r n0 : ℕ) (v : Arr)
    (hr : r < n0) (hJr : n0 ≤ Jr) (s : NSt (Heap × ℕ × ℕ))
    (hs : n0 ≤ s.x.1.length ∧ rd s.x.1 r = v) :
    rd (loopFuel (denseBodyHeap f h lin n Jr) maxit tol
      (maxit + 2) s).x.1 r = v :=
  (loopFuel_invar (denseBodyHeap f h lin n Jr) maxit tol
    (fun a => n0 ≤ a.1.length ∧ rd a.1 r = v)
    (fun a ha => denseBodyHeap_preserve f h lin n Jr r n0 v hr hJr a ha)
    (maxit + 2) s hs).2

theorem kryLoop_preserve (f : Arr → Arr) (h tol : ℚ)
    (kry : (Arr → Arr) → Arr → Arr → Arr) (maxit r n0 : ℕ) (v : Arr)
    (hr : r < n0) (s : NSt (Heap × ℕ))
    (hs : n0 ≤ s.x.1.length ∧ rd s.x.1 r = v) :
    rd (loopFuel (kryBodyHeap f h kry) maxit tol (maxit + 2) s).x.1 r = v :=
  (loopFuel_invar (kryBodyHeap f h kry) maxit tol
    (fun a => n0 ≤ a.1.length ∧ rd a.1 r = v)
    (fun a ha => kryBodyHeap_preserve f h kry r n0 v hr a ha)
    (maxit + 2) s hs).2

/-- C9: neither solver ever writes through the caller's array object: the
vector branch of `cnewton` and `cnewtonv`, run on a heap in which the
caller's x0 lives at reference r, copy it (`np.array(list(x0))`,
`x0.copy()`) and write only to objects allocated during the call, so at
return the caller's cell holds exactly its original contents — on the
error path as well as after any number of loop passes. -/
theorem C9_caller_array_unchanged (f : Arr → Arr) (maxit : ℕ) (tol h : ℚ)
    (lin : Arr → Arr → Arr) (kry : (Arr → Arr) → Arr → Arr → Arr)
    (st0 : Heap) (r : ℕ) (hr : r < st0.length) :
    rd (cnewtonVecHeap f maxit tol h lin st0 r).1 r = rd st0 r ∧
    rd (cnewtonvHeap f maxit tol h kry st0 r).1 r = rd st0 r := by
  constructor
  · simp only [cnewtonVecHeap]
    split
    · exact rd_appends3 st0 _ _ _ hr le_rfl
    · refine denseLoop_preserve f h tol lin maxit _ _ r st0.length
        (rd st0 r) hr ?_ _ ⟨?_, ?_⟩
      · simp only [List.length_append, List.length_cons, List.length_nil]
        omega
      · simp only [List.length_append, List.length_cons, List.length_nil]
        omega
      · exact rd_appends3 st0 _ _ _ hr le_rfl
  · simp only [cnewtonvHeap]
    split
    · exact (append_preserve hr _ _ (append_preserve hr _ _
        ⟨le_rfl, rfl⟩)).2
    · refine kryLoop_preserve f h tol kry maxit r st0.length
        (rd st0 r) hr _ ⟨?_, ?_⟩
      · simp only [List.length_append, List.length_cons, List.length_nil]
        omega
      · exact (append_preserve hr _ _ (append_preserve hr _ _
          ⟨le_rfl, rfl⟩)).2

/-- C9 witness: a concrete one-cell heap and a concrete run of both
solvers (identity residual, maxit = 0): the caller's cell is returned
unchanged. -/
theorem C9_witness :
    rd (cnewtonVecHeap (fun v => v) 0 1 1 (fun _ F => F)
      [[((5 : ℚ), (0 : ℚ))]] 0).1 0 = rd [[((5 : ℚ), (0 : ℚ))]] 0 ∧
    rd (cnewtonvHeap (fun v => v) 0 1 1 (fun _ b _ => b)
      [[((5 : ℚ), (0 : ℚ))]] 0).1 0 = rd [[((5 : ℚ), (0 : ℚ))]] 0 :=
  C9_caller_array_unchanged (fun v => v) 0 1 1 (fun _ F => F)
    (fun _ b _ => b) [[((5 : ℚ), (0 : ℚ))]] 0 (by decide)
